import Mathlib

/-!
Verification of the worker-pool subsystem implemented in
`src/cpp/src/thread_pool.cpp`.

The pool state (task queue, stop flag, worker states, plus ghost history
fields recording submissions and completed executions) is embedded as a
Lean structure.  Every region of code executed while `queue_mutex` is held
becomes one atomic step of a labelled transition system:

* `Label.enq t`   models `ThreadPool::enqueue` (lines 39-46): push the task
  at the back of `tasks` under the lock, then `notify_one`.
* `Label.stopL`   models the first half of `~ThreadPool` (lines 49-53):
  set `stop` under the lock, then `notify_all`.
* `Label.claim w` models worker `w` waking inside `condition.wait`
  (lines 24-31) with a non-empty queue: it pops the front task and leaves
  the locked region holding it.
* `Label.fin w`   models worker `w` finishing the claimed task outside the
  lock (line 33, `task()`) and looping back.
* `Label.exit w`  models worker `w` waking with `stop && tasks.empty()`
  and returning (lines 26-28).

`run` executes a list of labels from a state; `none` means some label's
precondition (the code's guard) does not hold, so quantifying over all
label lists quantifies over all interleavings of callers and workers.
The destructor's `join` loop (lines 54-56) is reflected by hypotheses of
the form "every worker is terminated": the destructor returns exactly in
those states.  Tasks are identified by natural numbers; in the benchmark
`main` (lines 92-107) the task with id `i` adds `heavy_computation i` to
the shared 64-bit counter, which is modelled by `counterOf` below.
-/

namespace ThreadPoolModel

/-- State of one worker thread spawned in `ThreadPool::ThreadPool`:
blocked/looking for work, executing a claimed task outside the lock, or
returned from the lambda (terminated). -/
inductive WorkerState where
  | idle
  | running (t : Nat)
  | done
deriving DecidableEq

/-- The shared state owned by one `ThreadPool`, plus ghost history fields:
`execLog` records the tasks whose execution has completed, in completion
order, and `submitted` records every task passed to `enqueue`, in call
order.  The ghost fields are write-only for the code and exist so that
theorems can speak about "all tasks submitted" and "all tasks executed". -/
structure PoolState where
  queue : List Nat
  stop : Bool
  workers : List WorkerState
  execLog : List Nat
  submitted : List Nat
deriving DecidableEq

/-- `ThreadPool::ThreadPool(n)` (lines 17-37): `stop(false)`, an empty
queue, and `n` workers immediately entering their drain loop. -/
def initState (n : Nat) : PoolState :=
  { queue := [], stop := false, workers := List.replicate n WorkerState.idle, execLog := [], submitted := [] }

/-- Result of one wake-up of a worker inside the locked region of the
worker lambda. -/
inductive WakeOutcome where
  | keepWaiting
  | terminate
  | task (t : Nat) (rest : List Nat)
deriving DecidableEq

/-- Lines 24-31 of the worker lambda, evaluated under `queue_mutex`:
`condition.wait(lock, [this]{ return stop || !tasks.empty(); })` keeps the
worker suspended while the predicate is false; on a wake with the
predicate true, `if (stop && tasks.empty()) return;` terminates the
worker, otherwise the front task is moved out and popped. -/
def workerWake (stop : Bool) (tasks : List Nat) : WakeOutcome :=
  if !(stop || !tasks.isEmpty) then WakeOutcome.keepWaiting
  else if stop && tasks.isEmpty then WakeOutcome.terminate
  else
    match tasks with
    | [] => WakeOutcome.keepWaiting
    | t :: rest => WakeOutcome.task t rest

/-- Labels of the transition system: one per atomic action of a caller
(`enq`), of the destructor (`stopL`), or of worker number `w`
(`claim`/`fin`/`exit`). -/
inductive Label where
  | enq (t : Nat)
  | stopL
  | claim (w : Nat)
  | fin (w : Nat)
  | exit (w : Nat)
deriving DecidableEq

/-- One atomic step of the pool.  `none` means the label's precondition
does not hold in `s` (that interleaving cannot happen).  Note that
`enq` has no precondition at all: `ThreadPool::enqueue` (lines 39-46)
never inspects `stop`. -/
def step (s : PoolState) : Label → Option PoolState
  | Label.enq t =>
      some { s with queue := s.queue ++ [t], submitted := s.submitted ++ [t] }
  | Label.stopL => some { s with stop := true }
  | Label.claim w =>
      match s.workers[w]? with
      | some WorkerState.idle =>
          match workerWake s.stop s.queue with
          | WakeOutcome.task t rest =>
              some { s with queue := rest, workers := s.workers.set w (WorkerState.running t) }
          | _ => none
      | _ => none
  | Label.fin w =>
      match s.workers[w]? with
      | some (WorkerState.running t) =>
          some { s with workers := s.workers.set w WorkerState.idle, execLog := s.execLog ++ [t] }
      | _ => none
  | Label.exit w =>
      match s.workers[w]? with
      | some WorkerState.idle =>
          match workerWake s.stop s.queue with
          | WakeOutcome.terminate =>
              some { s with workers := s.workers.set w WorkerState.done }
          | _ => none
      | _ => none

/-- Execute a whole interleaving (list of labels) from a state. -/
def run : PoolState → List Label → Option PoolState
  | s, [] => some s
  | s, l :: ls => (step s l).bind fun s1 => run s1 ls

/-- The multiset of one worker's in-flight task. -/
def taskMs : WorkerState → Multiset Nat
  | WorkerState.running t => {t}
  | _ => 0

/-- Tasks currently being executed by some worker, in worker order. -/
def runningTasks : List WorkerState → List Nat
  | [] => []
  | WorkerState.running t :: ws => t :: runningTasks ws
  | _ :: ws => runningTasks ws

/-- The conservation invariant: every submitted task is, at any moment, in
exactly one of three places — still queued, claimed by exactly one worker,
or already executed.  This is the invariant enforced by holding
`queue_mutex` across the check-and-remove in lines 22-32. -/
def Conserve (s : PoolState) : Prop :=
  (↑s.submitted : Multiset Nat) = ↑s.queue + ↑(runningTasks s.workers) + ↑s.execLog

def isEnq : Label → Bool
  | Label.enq _ => true
  | _ => false

/-- No `enqueue` call occurs anywhere in the trace. -/
def noEnqAt : List Label → Bool
  | [] => true
  | l :: ls => !isEnq l && noEnqAt ls

/-- Every `enqueue` call in the trace happens before the destructor's
`stop = true` step: all tasks are submitted before shutdown begins. -/
def noEnqAfterStop : List Label → Bool
  | [] => true
  | Label.stopL :: ls => noEnqAt ls
  | _ :: ls => noEnqAfterStop ls

/-- If some worker has terminated then the queue is empty and the stop
flag is set (an invariant of traces with no submission after shutdown). -/
def Drained (s : PoolState) : Prop :=
  WorkerState.done ∈ s.workers → s.queue = [] ∧ s.stop = true

/-- The ordered conservation invariant for a single-worker pool: the
submission order is exactly execution order, then the in-flight task,
then the queue. -/
def OrderedConserve (s : PoolState) : Prop :=
  s.workers.length = 1 ∧ s.submitted = s.execLog ++ (runningTasks s.workers ++ s.queue)

/-- Invariant of a pool constructed with zero workers. -/
def ZeroWorkers (s : PoolState) : Prop :=
  s.workers = [] ∧ s.execLog = [] ∧ s.queue = s.submitted

/-- `NUM_TASKS` (line 12 of the source). -/
def NUM_TASKS : Nat := 100000

/-- `NUM_WORKERS` (line 13 of the source). -/
def NUM_WORKERS : Nat := 8

/-- `heavy_computation` (lines 67-73): starting from `result = 0`, one
thousand iterations of `result += n * i`, all in `uint64_t` arithmetic,
i.e. modulo `2 ^ 64`. -/
def heavy_computation (n : Nat) : Nat :=
  (List.range 1000).foldl (fun result i => (result + n * i) % 2 ^ 64) 0

/-- One task of the benchmark `main` (lines 96-101): the task with id `i`
adds `heavy_computation i` into the shared `uint64_t` counter. -/
def counterStep (c : Nat) (i : Nat) : Nat := (c + heavy_computation i) % 2 ^ 64

/-- The value of the shared counter after the tasks in `log` have executed
in that order, starting from `counter(0)`. -/
def counterOf (log : List Nat) : Nat := log.foldl counterStep 0

/-- Trace fragment: a single caller enqueues the tasks of `l` in order. -/
def enqTrace (l : List Nat) : List Label := l.map Label.enq

/-- Trace fragment: worker 0 alone claims and completes one task per
element of `l`. -/
def drainTrace : List Nat → List Label
  | [] => []
  | _ :: rest => Label.claim 0 :: Label.fin 0 :: drainTrace rest

/-- Trace fragment: workers `j, j+1, ..., j+m-1` exit in order. -/
def exitTrace : Nat → Nat → List Label
  | _, 0 => []
  | j, m + 1 => Label.exit j :: exitTrace (j + 1) m

/-- One complete interleaving of the benchmark run: the main thread
enqueues tasks `0 .. NUM_TASKS-1`, the destructor sets the stop flag,
worker 0 drains the whole queue, then all `NUM_WORKERS` workers exit. -/
def benchTrace : List Label :=
  enqTrace (List.range NUM_TASKS) ++ Label.stopL :: (drainTrace (List.range NUM_TASKS) ++ exitTrace 0 NUM_WORKERS)

/-- The final state of the benchmark interleaving `benchTrace`. -/
def benchFinal : PoolState :=
  { queue := [], stop := true, workers := List.replicate NUM_WORKERS WorkerState.done, execLog := List.range NUM_TASKS, submitted := List.range NUM_TASKS }

/-- Outcome of executing one task body. -/
inductive TaskOutcome where
  | ok
  | error (e : Nat)
deriving DecidableEq

/-- What becomes of the worker thread after `task()` returns or raises. -/
inductive WorkerFate where
  | nextLoop
  | processTerminated (e : Nat)
deriving DecidableEq

/-- Line 33 of the worker lambda: `task();` with no surrounding handler.
If the task raises, nothing in the lambda catches it, so the exception
propagates out of the thread's start function — in C++ that calls
`std::terminate` and aborts the whole process; only a normal return loops
back to claim more work. -/
def runTaskUnprotected : TaskOutcome → WorkerFate
  | TaskOutcome.ok => WorkerFate.nextLoop
  | TaskOutcome.error e => WorkerFate.processTerminated e

/-- Final pool state of the five-step single-worker scenario used as a
concrete input below. -/
def oneTaskFinal : PoolState :=
  { queue := [], stop := true, workers := [WorkerState.done], execLog := [5], submitted := [5] }

def c8Before : PoolState :=
  { queue := [], stop := true, workers := [WorkerState.idle], execLog := [], submitted := [] }

def c8After : PoolState :=
  { queue := [4], stop := true, workers := [WorkerState.idle], execLog := [], submitted := [4] }

def c3Final : PoolState :=
  { queue := [7], stop := false, workers := [WorkerState.idle], execLog := [4], submitted := [4, 7] }

def c10Final : PoolState :=
  { queue := [3], stop := true, workers := [], execLog := [], submitted := [3] }

def c2Final : PoolState :=
  { queue := [2], stop := false, workers := [WorkerState.running 1, WorkerState.idle], execLog := [], submitted := [1, 2] }

def c5Final : PoolState :=
  { queue := [7], stop := false, workers := [WorkerState.idle], execLog := [], submitted := [7] }

/-! ### Basic facts about `workerWake` and `step` -/

lemma workerWake_cons (b : Bool) (t : Nat) (rest : List Nat) :
    workerWake b (t :: rest) = WakeOutcome.task t rest := by
  cases b <;> simp [workerWake]

lemma workerWake_task_inv {b : Bool} {q : List Nat} {t : Nat} {rest : List Nat}
    (h : workerWake b q = WakeOutcome.task t rest) : q = t :: rest := by
  cases q with
  | nil => cases b <;> simp [workerWake] at h
  | cons a as =>
      rw [workerWake_cons] at h
      injection h with h1 h2
      rw [h1, h2]

lemma workerWake_terminate_iff (b : Bool) (q : List Nat) :
    workerWake b q = WakeOutcome.terminate ↔ b = true ∧ q = [] := by
  cases b <;> cases q <;> simp [workerWake]

lemma step_enq_eq (s : PoolState) (t : Nat) :
    step s (Label.enq t)
      = some { s with queue := s.queue ++ [t], submitted := s.submitted ++ [t] } := rfl

lemma step_stopL_eq (s : PoolState) :
    step s Label.stopL = some { s with stop := true } := rfl

lemma step_claim_inv {s : PoolState} {w : Nat} {s' : PoolState}
    (h : step s (Label.claim w) = some s') :
    ∃ t rest, s.queue = t :: rest ∧ s.workers[w]? = some WorkerState.idle ∧
      s' = { s with queue := rest, workers := s.workers.set w (WorkerState.running t) } := by
  cases hw : s.workers[w]? with
  | none => simp [step, hw] at h
  | some a =>
      cases a with
      | idle =>
          cases hq : workerWake s.stop s.queue with
          | keepWaiting => simp [step, hw, hq] at h
          | terminate => simp [step, hw, hq] at h
          | task t rest =>
              refine ⟨t, rest, workerWake_task_inv hq, rfl, ?_⟩
              simp [step, hw, hq] at h
              exact h.symm
      | running t => simp [step, hw] at h
      | done => simp [step, hw] at h

lemma step_fin_inv {s : PoolState} {w : Nat} {s' : PoolState}
    (h : step s (Label.fin w) = some s') :
    ∃ t, s.workers[w]? = some (WorkerState.running t) ∧
      s' = { s with workers := s.workers.set w WorkerState.idle, execLog := s.execLog ++ [t] } := by
  cases hw : s.workers[w]? with
  | none => simp [step, hw] at h
  | some a =>
      cases a with
      | idle => simp [step, hw] at h
      | running t =>
          refine ⟨t, rfl, ?_⟩
          simp [step, hw] at h
          exact h.symm
      | done => simp [step, hw] at h

lemma step_exit_inv {s : PoolState} {w : Nat} {s' : PoolState}
    (h : step s (Label.exit w) = some s') :
    s.stop = true ∧ s.queue = [] ∧ s.workers[w]? = some WorkerState.idle ∧
      s' = { s with workers := s.workers.set w WorkerState.done } := by
  cases hw : s.workers[w]? with
  | none => simp [step, hw] at h
  | some a =>
      cases a with
      | idle =>
          cases hq : workerWake s.stop s.queue with
          | keepWaiting => simp [step, hw, hq] at h
          | terminate =>
              obtain ⟨hb, hqe⟩ := (workerWake_terminate_iff _ _).mp hq
              refine ⟨hb, hqe, rfl, ?_⟩
              simp [step, hw, hq] at h
              exact h.symm
          | task t rest => simp [step, hw, hq] at h
      | running t => simp [step, hw] at h
      | done => simp [step, hw] at h

/-- Step-closed predicates are closed under whole interleavings. -/
lemma run_preserves (P : PoolState → Prop)
    (hstep : ∀ s l s', step s l = some s' → P s → P s') :
    ∀ (ls : List Label) (s s' : PoolState), run s ls = some s' → P s → P s' := by
  intro ls
  induction ls with
  | nil =>
      intro s s' h hp
      simp [run] at h
      rw [← h]
      exact hp
  | cons l ls ih =>
      intro s s' h hp
      cases hst : step s l with
      | none => simp [run, hst] at h
      | some s1 =>
          simp [run, hst] at h
          exact ih s1 s' h (hstep s l s1 hst hp)

lemma step_stop_mono {s : PoolState} {l : Label} {s' : PoolState}
    (h : step s l = some s') (hs : s.stop = true) : s'.stop = true := by
  cases l with
  | enq t => rw [step_enq_eq] at h; injection h with h; rw [← h]; exact hs
  | stopL => rw [step_stopL_eq] at h; injection h with h; rw [← h]
  | claim w =>
      obtain ⟨t, rest, _, _, h⟩ := step_claim_inv h
      rw [h]; exact hs
  | fin w =>
      obtain ⟨t, _, h⟩ := step_fin_inv h
      rw [h]; exact hs
  | exit w =>
      obtain ⟨_, _, _, h⟩ := step_exit_inv h
      rw [h]; exact hs

lemma step_workers_length {s : PoolState} {l : Label} {s' : PoolState}
    (h : step s l = some s') : s'.workers.length = s.workers.length := by
  cases l with
  | enq t => rw [step_enq_eq] at h; injection h with h; rw [← h]
  | stopL => rw [step_stopL_eq] at h; injection h with h; rw [← h]
  | claim w =>
      obtain ⟨t, rest, _, _, h⟩ := step_claim_inv h
      rw [h]; simp
  | fin w =>
      obtain ⟨t, _, h⟩ := step_fin_inv h
      rw [h]; simp
  | exit w =>
      obtain ⟨_, _, _, h⟩ := step_exit_inv h
      rw [h]; simp

/-! ### Conservation of tasks -/

lemma runningTasks_cons (a : WorkerState) (ws : List WorkerState) :
    (↑(runningTasks (a :: ws)) : Multiset Nat) = taskMs a + ↑(runningTasks ws) := by
  cases a <;> simp [runningTasks, taskMs]

lemma runningTasks_set : ∀ (ws : List WorkerState) (w : Nat) (x y : WorkerState),
    ws[w]? = some y →
    (↑(runningTasks (ws.set w x)) : Multiset Nat) + taskMs y
      = ↑(runningTasks ws) + taskMs x := by
  intro ws
  induction ws with
  | nil => intro w x y h; simp at h
  | cons a t ih =>
      intro w x y h
      cases w with
      | zero =>
          simp at h
          rw [← h, List.set_cons_zero, runningTasks_cons, runningTasks_cons]
          abel
      | succ n =>
          simp at h
          rw [List.set_cons_succ, runningTasks_cons, runningTasks_cons, add_assoc,
            ih n x y h, ← add_assoc]

lemma runningTasks_replicate_idle : ∀ n, runningTasks (List.replicate n WorkerState.idle) = [] := by
  intro n
  induction n with
  | zero => rfl
  | succ m ih => rw [List.replicate_succ]; simpa [runningTasks] using ih

lemma runningTasks_of_all_done : ∀ ws : List WorkerState,
    (∀ w ∈ ws, w = WorkerState.done) → runningTasks ws = [] := by
  intro ws
  induction ws with
  | nil => intro _; rfl
  | cons a t ih =>
      intro h
      have ha : a = WorkerState.done := h a (List.mem_cons_self a t)
      rw [ha]
      show runningTasks t = []
      exact ih fun w hw => h w (List.mem_cons_of_mem a hw)

lemma step_conserve {s : PoolState} {l : Label} {s' : PoolState}
    (h : step s l = some s') (hc : Conserve s) : Conserve s' := by
  unfold Conserve at hc ⊢
  cases l with
  | enq t =>
      rw [step_enq_eq] at h
      injection h with h
      rw [← h]
      show (↑(s.submitted ++ [t]) : Multiset Nat) = ↑(s.queue ++ [t]) + _ + _
      rw [← Multiset.coe_add, ← Multiset.coe_add, hc]
      abel
  | stopL =>
      rw [step_stopL_eq] at h
      injection h with h
      rw [← h]
      exact hc
  | claim w =>
      obtain ⟨t, rest, hq, hw, h⟩ := step_claim_inv h
      rw [h]
      show (↑s.submitted : Multiset Nat) = ↑rest + ↑(runningTasks (s.workers.set w (WorkerState.running t))) + ↑s.execLog
      have hset := runningTasks_set s.workers w (WorkerState.running t) WorkerState.idle hw
      rw [show taskMs WorkerState.idle = 0 from rfl, add_zero] at hset
      rw [hset, hc, hq]
      show (↑(t :: rest) : Multiset Nat) + _ + _ = _
      rw [← Multiset.cons_coe, ← Multiset.singleton_add,
        show taskMs (WorkerState.running t) = {t} from rfl]
      abel
  | fin w =>
      obtain ⟨t, hw, h⟩ := step_fin_inv h
      rw [h]
      show (↑s.submitted : Multiset Nat) = ↑s.queue + ↑(runningTasks (s.workers.set w WorkerState.idle)) + ↑(s.execLog ++ [t])
      have hset := runningTasks_set s.workers w WorkerState.idle (WorkerState.running t) hw
      rw [show taskMs WorkerState.idle = 0 from rfl, add_zero,
        show taskMs (WorkerState.running t) = {t} from rfl] at hset
      rw [← Multiset.coe_add, hc, ← hset, Multiset.coe_singleton]
      abel
  | exit w =>
      obtain ⟨_, _, hw, h⟩ := step_exit_inv h
      rw [h]
      show (↑s.submitted : Multiset Nat) = ↑s.queue + ↑(runningTasks (s.workers.set w WorkerState.done)) + ↑s.execLog
      have hset := runningTasks_set s.workers w WorkerState.done WorkerState.idle hw
      rw [show taskMs WorkerState.idle = 0 from rfl, add_zero,
        show taskMs WorkerState.done = 0 from rfl, add_zero] at hset
      rw [hset]
      exact hc

lemma run_conserve {ls : List Label} {s s' : PoolState}
    (h : run s ls = some s') (hc : Conserve s) : Conserve s' :=
  run_preserves Conserve (fun _ _ _ hs hp => step_conserve hs hp) ls s s' h hc

lemma initState_conserve (n : Nat) : Conserve (initState n) := by
  unfold Conserve initState
  simp [runningTasks_replicate_idle]

/-! ### The drain invariant -/

lemma noEnqAt_cons_head {l : Label} {ls : List Label}
    (h : noEnqAt (l :: ls) = true) : isEnq l = false := by
  unfold noEnqAt at h
  cases hl : isEnq l with
  | false => rfl
  | true => rw [hl] at h; simp at h

lemma noEnqAt_cons_tail {l : Label} {ls : List Label}
    (h : noEnqAt (l :: ls) = true) : noEnqAt ls = true := by
  unfold noEnqAt at h
  exact (Bool.and_eq_true _ _ |>.mp h).2

lemma noEnqAt_imp_afterStop : ∀ ls : List Label,
    noEnqAt ls = true → noEnqAfterStop ls = true := by
  intro ls
  induction ls with
  | nil => intro _; rfl
  | cons l t ih =>
      intro h
      cases l with
      | enq a =>
          have := noEnqAt_cons_head h
          simp [isEnq] at this
      | stopL => exact noEnqAt_cons_tail h
      | claim w => exact ih (noEnqAt_cons_tail h)
      | fin w => exact ih (noEnqAt_cons_tail h)
      | exit w => exact ih (noEnqAt_cons_tail h)

lemma run_drained_inv : ∀ (ls : List Label) (s s' : PoolState),
    run s ls = some s' →
    noEnqAfterStop ls = true →
    (s.stop = true → noEnqAt ls = true) →
    Drained s → Drained s' := by
  intro ls
  induction ls with
  | nil =>
      intro s s' h _ _ hd
      simp [run] at h
      rw [← h]
      exact hd
  | cons l ls ih =>
      intro s s' h hafter hstopcase hd
      cases hst : step s l with
      | none => simp [run, hst] at h
      | some s1 =>
          simp [run, hst] at h
          cases l with
          | enq t =>
              have hs : s.stop = false := by
                cases hs : s.stop with
                | false => rfl
                | true =>
                    have := noEnqAt_cons_head (hstopcase hs)
                    simp [isEnq] at this
              rw [step_enq_eq] at hst
              injection hst with hst
              refine ih s1 s' h ?_ ?_ ?_
              · exact hafter
              · intro h1
                rw [← hst] at h1
                simp at h1
                rw [h1] at hs
                exact absurd hs (by simp)
              · intro hmem
                rw [← hst] at hmem
                simp at hmem
                have := (hd hmem).2
                rw [this] at hs
                exact absurd hs (by simp)
          | stopL =>
              rw [step_stopL_eq] at hst
              injection hst with hst
              have hEnqTail : noEnqAt ls = true := hafter
              refine ih s1 s' h (noEnqAt_imp_afterStop ls hEnqTail) (fun _ => hEnqTail) ?_
              intro hmem
              rw [← hst] at hmem
              simp at hmem
              rw [← hst]
              exact ⟨(hd hmem).1, rfl⟩
          | claim w =>
              obtain ⟨t, rest, hq, hw, hs1⟩ := step_claim_inv hst
              refine ih s1 s' h hafter ?_ ?_
              · intro h1
                rw [hs1] at h1
                simp at h1
                exact hstopcase h1
              · intro hmem
                rw [hs1] at hmem
                simp at hmem
                rcases List.mem_or_eq_of_mem_set hmem with hmem' | habs
                · have := (hd hmem').1
                  rw [hq] at this
                  exact absurd this (by simp)
                · exact absurd habs (by simp)
          | fin w =>
              obtain ⟨t, hw, hs1⟩ := step_fin_inv hst
              refine ih s1 s' h hafter ?_ ?_
              · intro h1
                rw [hs1] at h1
                simp at h1
                exact hstopcase h1
              · intro hmem
                rw [hs1] at hmem
                simp at hmem
                rcases List.mem_or_eq_of_mem_set hmem with hmem' | habs
                · have := hd hmem'
                  rw [hs1]
                  exact ⟨this.1, this.2⟩
                · exact absurd habs (by simp)
          | exit w =>
              obtain ⟨hstop, hq, hw, hs1⟩ := step_exit_inv hst
              refine ih s1 s' h hafter ?_ ?_
              · intro _
                exact hstopcase hstop
              · intro _
                rw [hs1]
                exact ⟨hq, hstop⟩

lemma initState_drained (n : Nat) : Drained (initState n) := by
  intro hmem
  simp [initState] at hmem

/-- Shutdown with at least one worker drains everything: in any state in
which every worker has terminated, the queue is empty and the executed
tasks are exactly the submitted tasks (as multisets). -/
lemma drained_final (n : Nat) (ls : List Label) (s : PoolState)
    (hn : 0 < n)
    (hrun : run (initState n) ls = some s)
    (henq : noEnqAfterStop ls = true)
    (hdone : ∀ w ∈ s.workers, w = WorkerState.done) :
    s.queue = [] ∧ (↑s.execLog : Multiset Nat) = ↑s.submitted := by
  have hlen : s.workers.length = n :=
    run_preserves (fun st => st.workers.length = n)
      (fun s0 l s1 hs hp => by
        show s1.workers.length = n
        rw [step_workers_length hs]
        exact hp)
      ls (initState n) s hrun (by simp [initState])
  have hmem : WorkerState.done ∈ s.workers := by
    cases hwcase : s.workers with
    | nil => rw [hwcase] at hlen; simp at hlen; omega
    | cons a t =>
        have ha : a = WorkerState.done :=
          hdone a (by rw [hwcase]; exact List.mem_cons_self a t)
        rw [← ha]
        exact List.mem_cons_self a t
  have hdr : Drained s := by
    refine run_drained_inv ls (initState n) s hrun henq ?_ (initState_drained n)
    intro habs
    simp [initState] at habs
  obtain ⟨hq, _⟩ := hdr hmem
  have hc : Conserve s := run_conserve hrun (initState_conserve n)
  unfold Conserve at hc
  rw [hq, runningTasks_of_all_done s.workers hdone] at hc
  simp at hc
  exact ⟨hq, Multiset.coe_eq_coe.mpr hc.symm⟩

/-! ### The claims -/

/-- Claim C1: drain guarantee.  For every trace in which all tasks are
submitted before shutdown begins (`noEnqAfterStop`), once every worker
has terminated — which is exactly the condition under which the
destructor's `join` loop, and hence shutdown, returns — the queue is
empty and the multiset of executed tasks equals the multiset of submitted
tasks: no submitted task is ever lost and none is run twice.  A worker
treats an empty queue as terminal only together with the stop flag
(`workerWake`), so the queue is fully drained before the last worker can
have exited. -/
theorem C1_drain_guarantee (n : Nat) (ls : List Label) (s : PoolState)
    (hn : 0 < n)
    (hrun : run (initState n) ls = some s)
    (henq : noEnqAfterStop ls = true)
    (hdone : ∀ w ∈ s.workers, w = WorkerState.done) :
    s.queue = [] ∧ (↑s.execLog : Multiset Nat) = ↑s.submitted :=
  drained_final n ls s hn hrun henq hdone

theorem C1_drain_guarantee_witness :
    oneTaskFinal.queue = [] ∧ (↑oneTaskFinal.execLog : Multiset Nat) = ↑oneTaskFinal.submitted :=
  C1_drain_guarantee 1 [Label.enq 5, Label.stopL, Label.claim 0, Label.fin 0, Label.exit 0]
    oneTaskFinal (by decide) (by decide) (by decide) (by decide)

/-- Claim C2: exactly-once claim transfer.  In every reachable state the
submitted tasks are exactly the queued tasks, plus the tasks currently
claimed (each held by exactly one worker), plus the tasks already
executed — as multisets.  So each enqueued task is removed from the queue
by exactly one worker and executed at most once: the check for
non-emptiness and the removal of the front task happen atomically in the
single lock-protected step `Label.claim`. -/
theorem C2_exactly_once_transfer (n : Nat) (ls : List Label) (s : PoolState)
    (hrun : run (initState n) ls = some s) :
    (↑s.submitted : Multiset Nat) = ↑s.queue + ↑(runningTasks s.workers) + ↑s.execLog :=
  run_conserve hrun (initState_conserve n)

theorem C2_exactly_once_transfer_witness :
    (↑c2Final.submitted : Multiset Nat)
      = ↑c2Final.queue + ↑(runningTasks c2Final.workers) + ↑c2Final.execLog :=
  C2_exactly_once_transfer 2 [Label.enq 1, Label.enq 2, Label.claim 0] c2Final (by decide)

/-! ### FIFO order for a single-worker pool -/

lemma step_ordered {s : PoolState} {l : Label} {s' : PoolState}
    (h : step s l = some s') (hc : OrderedConserve s) : OrderedConserve s' := by
  obtain ⟨hlen, hord⟩ := hc
  obtain ⟨a, ha⟩ := List.length_eq_one.mp hlen
  cases l with
  | enq t =>
      rw [step_enq_eq] at h
      injection h with h
      rw [← h]
      refine ⟨hlen, ?_⟩
      show s.submitted ++ [t] = s.execLog ++ (runningTasks s.workers ++ (s.queue ++ [t]))
      rw [hord]
      simp
  | stopL =>
      rw [step_stopL_eq] at h
      injection h with h
      rw [← h]
      exact ⟨hlen, hord⟩
  | claim w =>
      obtain ⟨t, rest, hq, hw, h⟩ := step_claim_inv h
      rw [ha] at hw
      have hw0 : w = 0 ∧ a = WorkerState.idle := by
        cases w with
        | zero => simp at hw; exact ⟨rfl, hw⟩
        | succ m => simp at hw
      obtain ⟨hww, haa⟩ := hw0
      rw [h, ha, haa, hww]
      refine ⟨by simp, ?_⟩
      show s.submitted = s.execLog ++ (runningTasks ([WorkerState.idle].set 0 (WorkerState.running t)) ++ rest)
      rw [hord, ha, haa, hq]
      simp [runningTasks]
  | fin w =>
      obtain ⟨t, hw, h⟩ := step_fin_inv h
      rw [ha] at hw
      have hw0 : w = 0 ∧ a = WorkerState.running t := by
        cases w with
        | zero => simp at hw; exact ⟨rfl, hw⟩
        | succ m => simp at hw
      obtain ⟨hww, haa⟩ := hw0
      rw [h, ha, haa, hww]
      refine ⟨by simp, ?_⟩
      show s.submitted = (s.execLog ++ [t]) ++ (runningTasks ([WorkerState.running t].set 0 WorkerState.idle) ++ s.queue)
      rw [hord, ha, haa]
      simp [runningTasks]
  | exit w =>
      obtain ⟨_, _, hw, h⟩ := step_exit_inv h
      rw [ha] at hw
      have hw0 : w = 0 ∧ a = WorkerState.idle := by
        cases w with
        | zero => simp at hw; exact ⟨rfl, hw⟩
        | succ m => simp at hw
      obtain ⟨hww, haa⟩ := hw0
      rw [h, ha, haa, hww]
      refine ⟨by simp, ?_⟩
      show s.submitted = s.execLog ++ (runningTasks ([WorkerState.idle].set 0 WorkerState.done) ++ s.queue)
      rw [hord, ha, haa]
      simp [runningTasks]

/-- Claim C3: FIFO ordering.  `workerWake` always removes and returns the
front (earliest-enqueued) task of a non-empty queue; and for a pool
constructed with one worker and a single producer, in every reachable
state the submission order is literally the execution order followed by
the in-flight task followed by the still-queued tasks — in particular the
executed tasks are a prefix of the submitted tasks, so tasks execute in
exactly the order submitted. -/
theorem C3_fifo_order (ls : List Label) (s : PoolState)
    (hrun : run (initState 1) ls = some s) :
    (∀ (b : Bool) (t : Nat) (rest : List Nat),
        workerWake b (t :: rest) = WakeOutcome.task t rest) ∧
    s.submitted = s.execLog ++ (runningTasks s.workers ++ s.queue) := by
  refine ⟨workerWake_cons, ?_⟩
  have h := run_preserves OrderedConserve
    (fun s0 l s1 hs hp => step_ordered hs hp) ls (initState 1) s hrun
    ⟨by simp [initState], by simp [initState, runningTasks, List.replicate]⟩
  exact h.2

theorem C3_fifo_order_witness :
    (∀ (b : Bool) (t : Nat) (rest : List Nat),
        workerWake b (t :: rest) = WakeOutcome.task t rest) ∧
    c3Final.submitted = c3Final.execLog ++ (runningTasks c3Final.workers ++ c3Final.queue) :=
  C3_fifo_order [Label.enq 4, Label.enq 7, Label.claim 0, Label.fin 0] c3Final (by decide)

/-- Claim C4: worker termination condition.  A worker's dequeue-or-wait
returns the termination sentinel exactly when the queue is empty and the
stop flag is set; if the queue is non-empty on wake, the front task is
removed and returned regardless of the flag. -/
theorem C4_worker_termination (b : Bool) (q : List Nat) :
    (workerWake b q = WakeOutcome.terminate ↔ q = [] ∧ b = true) ∧
    (∀ t rest, q = t :: rest → workerWake b q = WakeOutcome.task t rest) := by
  constructor
  · rw [workerWake_terminate_iff]
    exact ⟨fun h => ⟨h.2, h.1⟩, fun h => ⟨h.2, h.1⟩⟩
  · intro t rest hq
    rw [hq]
    exact workerWake_cons b t rest

theorem C4_worker_termination_witness :
    workerWake true [] = WakeOutcome.terminate ∧
    workerWake false [3] = WakeOutcome.task 3 [] :=
  ⟨(C4_worker_termination true []).1.mpr ⟨rfl, rfl⟩,
   (C4_worker_termination false [3]).2 3 [] rfl⟩

/-- Claim C5: enqueue postcondition.  `ThreadPool::enqueue` appends the
task at the back of the queue, increases the queue length by exactly one,
leaves every previously queued task unchanged at its position, and makes
the consumers' wake condition true (the `notify_one` after the push wakes
a blocked consumer, and a woken consumer re-checking the predicate now
proceeds instead of waiting).  The ghost submission log is extended
likewise. -/
theorem C5_enqueue_postcondition (s : PoolState) (t : Nat) (s' : PoolState)
    (h : step s (Label.enq t) = some s') :
    s'.queue = s.queue ++ [t] ∧
    s'.queue.length = s.queue.length + 1 ∧
    (∀ i, i < s.queue.length → s'.queue[i]? = s.queue[i]?) ∧
    workerWake s'.stop s'.queue ≠ WakeOutcome.keepWaiting ∧
    s'.submitted = s.submitted ++ [t] := by
  rw [step_enq_eq] at h
  injection h with h
  rw [← h]
  refine ⟨rfl, by simp, ?_, ?_, rfl⟩
  · intro i hi
    show (s.queue ++ [t])[i]? = s.queue[i]?
    rw [List.getElem?_append_left hi]
  · show workerWake s.stop (s.queue ++ [t]) ≠ WakeOutcome.keepWaiting
    cases hq : s.queue ++ [t] with
    | nil => simp at hq
    | cons a as => rw [workerWake_cons]; intro habs; cases habs

theorem C5_enqueue_postcondition_witness :
    c5Final.queue = (initState 1).queue ++ [7] ∧
    c5Final.queue.length = (initState 1).queue.length + 1 ∧
    (∀ i, i < (initState 1).queue.length → c5Final.queue[i]? = (initState 1).queue[i]?) ∧
    workerWake c5Final.stop c5Final.queue ≠ WakeOutcome.keepWaiting ∧
    c5Final.submitted = (initState 1).submitted ++ [7] :=
  C5_enqueue_postcondition (initState 1) 7 c5Final (by decide)

/-- Claim C6 (refuted by the code): the claim says a submit call made
after shutdown has begun is explicitly rejected.  `ThreadPool::enqueue`
(lines 39-46) never inspects `stop`: after the destructor has set the
stop flag, an enqueue still succeeds silently and appends the task to the
queue; no error of any kind is signalled to the caller.  This theorem
evaluates the code on the failing input: a one-worker pool whose
destructor has already set the flag accepts `enqueue(0)`. -/
theorem C6_submit_after_stop_accepted :
    run (initState 1) [Label.stopL, Label.enq 0]
      = some { queue := [0], stop := true, workers := [WorkerState.idle], execLog := [], submitted := [0] } := by
  decide

/-- Claim C7 (refuted by the code): the claim says an error raised by a
task is contained to that task and the worker returns to idle.  Line 33
executes `task();` with no try/catch anywhere in the worker lambda, so an
exception thrown by a task propagates out of the thread's start function,
which in C++ calls `std::terminate` and kills the entire process — the
worker does not survive, let alone return to idle. -/
theorem C7_task_error_not_contained :
    runTaskUnprotected (TaskOutcome.error 7) = WorkerFate.processTerminated 7 ∧
    ∀ e, runTaskUnprotected (TaskOutcome.error e) ≠ WorkerFate.nextLoop := by
  refine ⟨rfl, fun e habs => ?_⟩
  cases habs

/-- Claim C8: the shutdown flag starts false at construction
(`stop(false)` in line 17) and no step of the pool ever resets it: once
true it stays true, a one-way transition preserved by every operation. -/
theorem C8_stop_flag_monotone (n : Nat) (ls : List Label) (s s' : PoolState) :
    (initState n).stop = false ∧
    (run s ls = some s' → s.stop = true → s'.stop = true) := by
  refine ⟨rfl, fun hrun hs => ?_⟩
  exact run_preserves (fun st => st.stop = true)
    (fun s0 l s1 h1 hp => step_stop_mono h1 hp) ls s s' hrun hs

theorem C8_stop_flag_monotone_witness :
    (initState 3).stop = false ∧ c8After.stop = true :=
  ⟨(C8_stop_flag_monotone 3 [Label.enq 4] c8Before c8After).1,
   (C8_stop_flag_monotone 3 [Label.enq 4] c8Before c8After).2 (by decide) rfl⟩

/-! ### The zero-worker pool -/

lemma step_zero_workers {s : PoolState} {l : Label} {s' : PoolState}
    (h : step s l = some s') (hz : ZeroWorkers s) : ZeroWorkers s' := by
  obtain ⟨hw, he, hq⟩ := hz
  cases l with
  | enq t =>
      rw [step_enq_eq] at h
      injection h with h
      rw [← h]
      exact ⟨hw, he, by show s.queue ++ [t] = s.submitted ++ [t]; rw [hq]⟩
  | stopL =>
      rw [step_stopL_eq] at h
      injection h with h
      rw [← h]
      exact ⟨hw, he, hq⟩
  | claim w =>
      obtain ⟨t, rest, _, hww, _⟩ := step_claim_inv h
      rw [hw] at hww
      simp at hww
  | fin w =>
      obtain ⟨t, hww, _⟩ := step_fin_inv h
      rw [hw] at hww
      simp at hww
  | exit w =>
      obtain ⟨_, _, hww, _⟩ := step_exit_inv h
      rw [hw] at hww
      simp at hww

/-- Claim C10: zero-worker pool.  Constructing with `worker_count = 0`
spawns no worker, so in every reachable state the worker list is empty,
the destructor's join loop has nothing to wait for (the "all workers
terminated" condition holds vacuously, so destruction returns
immediately), no task is ever executed, and every submitted task is still
sitting in the queue. -/
theorem C10_zero_worker_pool (ls : List Label) (s : PoolState)
    (hrun : run (initState 0) ls = some s) :
    s.workers = [] ∧ (∀ w ∈ s.workers, w = WorkerState.done) ∧
    s.execLog = [] ∧ s.queue = s.submitted := by
  have h := run_preserves ZeroWorkers
    (fun s0 l s1 hs hp => step_zero_workers hs hp) ls (initState 0) s hrun
    ⟨by simp [initState], rfl, rfl⟩
  refine ⟨h.1, ?_, h.2.1, h.2.2⟩
  intro w hw
  rw [h.1] at hw
  simp at hw

theorem C10_zero_worker_pool_witness :
    c10Final.workers = [] ∧ (∀ w ∈ c10Final.workers, w = WorkerState.done) ∧
    c10Final.execLog = [] ∧ c10Final.queue = c10Final.submitted :=
  C10_zero_worker_pool [Label.enq 3, Label.stopL] c10Final (by decide)

/-! ### Arithmetic of the benchmark -/

lemma foldl_mod_add (n : Nat) : ∀ (k c : Nat),
    (List.range k).foldl (fun result i => (result + n * i) % 2 ^ 64) (c % 2 ^ 64)
      = (c + n * (List.range k).sum) % 2 ^ 64 := by
  intro k
  induction k with
  | zero => intro c; simp
  | succ m ih =>
      intro c
      rw [List.range_succ, List.foldl_append, ih c, List.sum_append]
      show ((c + n * (List.range m).sum) % 2 ^ 64 + n * m) % 2 ^ 64 = _
      rw [Nat.mod_add_mod]
      congr 1
      simp [Nat.mul_add]
      ring

lemma sum_range_two_mul : ∀ k, 2 * (List.range k).sum = k * (k - 1) := by
  intro k
  induction k with
  | zero => rfl
  | succ m ih =>
      rw [List.range_succ, List.sum_append]
      simp only [List.sum_cons, List.sum_nil, add_zero, Nat.succ_sub_one]
      rw [Nat.mul_add, ih]
      cases m with
      | zero => rfl
      | succ j => ring_nf; simp [Nat.succ_sub_one]; ring

lemma sum_range_1000 : (List.range 1000).sum = 499500 := by
  have h := sum_range_two_mul 1000
  omega

lemma sum_range_100000 : (List.range 100000).sum = 4999950000 := by
  have h := sum_range_two_mul 100000
  omega

/-- Closed form of `heavy_computation`: `n * 499500` in 64-bit
arithmetic. -/
lemma heavy_computation_closed (n : Nat) : heavy_computation n = n * 499500 % 2 ^ 64 := by
  have h := foldl_mod_add n 1000 0
  rw [Nat.zero_mod, Nat.zero_add, sum_range_1000] at h
  exact h

lemma counterOf_foldl : ∀ (log : List Nat) (c : Nat),
    log.foldl counterStep (c % 2 ^ 64) = (c + (log.map heavy_computation).sum) % 2 ^ 64 := by
  intro log
  induction log with
  | nil => intro c; simp
  | cons i rest ih =>
      intro c
      rw [List.foldl_cons]
      have hstep : counterStep (c % 2 ^ 64) i = (c + heavy_computation i) % 2 ^ 64 := by
        unfold counterStep
        rw [Nat.mod_add_mod]
      rw [hstep, ih (c + heavy_computation i), List.map_cons, List.sum_cons, Nat.add_assoc]

/-- The counter is the 64-bit sum of `heavy_computation` over the
execution log. -/
lemma counterOf_eq (log : List Nat) :
    counterOf log = (log.map heavy_computation).sum % 2 ^ 64 := by
  have h := counterOf_foldl log 0
  rw [Nat.zero_mod, Nat.zero_add] at h
  exact h

lemma sum_map_mul_right : ∀ (l : List Nat) (a : Nat),
    (l.map (fun i => i * a)).sum = l.sum * a := by
  intro l
  induction l with
  | nil => intro a; simp
  | cons i rest ih =>
      intro a
      rw [List.map_cons, List.sum_cons, List.sum_cons, ih a, Nat.add_mul]

lemma sum_map_heavy_range :
    ((List.range 100000).map heavy_computation).sum = 2497475025000000 := by
  have h1 : (List.range 100000).map heavy_computation
      = (List.range 100000).map (fun i => i * 499500) := by
    apply List.map_congr_left
    intro i hi
    have hilt : i < 100000 := List.mem_range.mp hi
    rw [heavy_computation_closed]
    apply Nat.mod_eq_of_lt
    omega
  rw [h1, sum_map_mul_right, sum_range_100000]

/-- Claim C9: benchmark accumulator exactness.  For every interleaving of
the benchmark run — the pool has `NUM_WORKERS = 8` workers, the single
caller submits exactly tasks `0 .. NUM_TASKS-1 = 99999` before shutdown
begins, and shutdown has completed (every worker terminated) — the shared
64-bit counter equals the exact sum of `heavy_computation i` over
`i < 100000`, where `heavy_computation n = n * 499500` in arithmetic
modulo `2 ^ 64`; the sum is `2497475025000000`, an exact match. -/
theorem C9_benchmark_counter (ls : List Label) (s : PoolState)
    (hrun : run (initState NUM_WORKERS) ls = some s)
    (henq : noEnqAfterStop ls = true)
    (hsub : s.submitted = List.range NUM_TASKS)
    (hdone : ∀ w ∈ s.workers, w = WorkerState.done) :
    counterOf s.execLog = 2497475025000000 ∧
    counterOf s.execLog = ((List.range NUM_TASKS).map heavy_computation).sum % 2 ^ 64 ∧
    ∀ n, heavy_computation n = n * 499500 % 2 ^ 64 := by
  have hd := drained_final NUM_WORKERS ls s (by decide) hrun henq hdone
  have hperm : s.execLog.Perm (List.range NUM_TASKS) := by
    have := hd.2
    rw [hsub] at this
    exact Multiset.coe_eq_coe.mp this
  have hsum : (s.execLog.map heavy_computation).sum
      = ((List.range NUM_TASKS).map heavy_computation).sum :=
    List.Perm.sum_eq (List.Perm.map heavy_computation hperm)
  have h2 : counterOf s.execLog = ((List.range NUM_TASKS).map heavy_computation).sum % 2 ^ 64 := by
    rw [counterOf_eq, hsum]
  refine ⟨?_, h2, fun n => heavy_computation_closed n⟩
  rw [h2, show NUM_TASKS = 100000 from rfl, sum_map_heavy_range]
  decide

/-! ### A complete benchmark interleaving, used as the concrete input for
claim C9: the caller enqueues all `NUM_TASKS` tasks, the destructor sets
the stop flag, worker 0 drains the queue, and all workers exit. -/

lemma run_append : ∀ (l1 l2 : List Label) (s : PoolState),
    run s (l1 ++ l2) = (run s l1).bind fun s1 => run s1 l2 := by
  intro l1
  induction l1 with
  | nil => intro l2 s; simp [run]
  | cons l t ih =>
      intro l2 s
      show run s (l :: (t ++ l2)) = _
      cases hst : step s l with
      | none => simp [run, hst]
      | some s1 => simp [run, hst, ih l2 s1]

lemma run_enqTrace : ∀ (l : List Nat) (s : PoolState),
    run s (enqTrace l)
      = some { s with queue := s.queue ++ l, submitted := s.submitted ++ l } := by
  intro l
  induction l with
  | nil => intro s; simp [enqTrace, run]
  | cons t rest ih =>
      intro s
      show run s (Label.enq t :: enqTrace rest) = _
      rw [run, step_enq_eq, Option.some_bind, ih]
      simp

lemma run_drainTrace : ∀ (l : List Nat) (s : PoolState) (ws : List WorkerState),
    s.workers = WorkerState.idle :: ws → s.queue = l →
    run s (drainTrace l) = some { s with queue := [], execLog := s.execLog ++ l } := by
  intro l
  induction l with
  | nil =>
      intro s ws hw hq
      show run s [] = some { s with queue := [], execLog := s.execLog ++ [] }
      rw [run, List.append_nil, ← hq]
  | cons t rest ih =>
      intro s ws hw hq
      show run s (Label.claim 0 :: Label.fin 0 :: drainTrace rest) = _
      have hclaim : step s (Label.claim 0)
          = some { s with queue := rest, workers := WorkerState.running t :: ws } := by
        unfold step
        rw [hw]
        simp only [List.getElem?_cons_zero, hq, workerWake_cons, List.set_cons_zero]
      rw [run, hclaim, Option.some_bind, run]
      have hfin : step
          { s with queue := rest, workers := WorkerState.running t :: ws } (Label.fin 0)
          = some { s with queue := rest, workers := WorkerState.idle :: ws, execLog := s.execLog ++ [t] } := by
        unfold step
        simp only [List.getElem?_cons_zero, List.set_cons_zero]
      rw [hfin, Option.some_bind,
        ih { s with queue := rest, workers := WorkerState.idle :: ws, execLog := s.execLog ++ [t] } ws rfl rfl]
      simp [hw]

lemma getElem?_replicate_append {α : Type} (j : Nat) (a b : α) (t : List α) :
    (List.replicate j a ++ b :: t)[j]? = some b := by
  induction j with
  | zero => simp
  | succ n ih => simpa [List.replicate_succ] using ih

lemma set_replicate_append {α : Type} (j : Nat) (a b c : α) (t : List α) :
    (List.replicate j a ++ b :: t).set j c = List.replicate j a ++ c :: t := by
  induction j with
  | zero => simp
  | succ n ih => simp [List.replicate_succ, ih]

lemma replicate_append_cons {α : Type} (j : Nat) (a : α) (t : List α) :
    List.replicate j a ++ a :: t = List.replicate (j + 1) a ++ t := by
  rw [List.replicate_succ', List.append_assoc, List.singleton_append]

lemma run_exitTrace : ∀ (m j : Nat) (s : PoolState),
    s.stop = true → s.queue = [] →
    s.workers = List.replicate j WorkerState.done ++ List.replicate m WorkerState.idle →
    run s (exitTrace j m)
      = some { s with workers := List.replicate (j + m) WorkerState.done } := by
  intro m
  induction m with
  | zero =>
      intro j s hs hq hw
      simp only [List.replicate, List.append_nil] at hw
      show run s [] = _
      rw [run, Nat.add_zero, ← hw]
  | succ m ih =>
      intro j s hs hq hw
      show run s (Label.exit j :: exitTrace (j + 1) m) = _
      rw [List.replicate_succ] at hw
      have hterm : workerWake s.stop s.queue = WakeOutcome.terminate :=
        (workerWake_terminate_iff _ _).mpr ⟨hs, hq⟩
      have hexit : step s (Label.exit j)
          = some { s with workers := List.replicate (j + 1) WorkerState.done ++ List.replicate m WorkerState.idle } := by
        simp only [step, hw, getElem?_replicate_append, hterm, set_replicate_append,
          replicate_append_cons]
      rw [run, hexit, Option.some_bind,
        ih (j + 1)
          { s with workers := List.replicate (j + 1) WorkerState.done ++ List.replicate m WorkerState.idle }
          hs hq rfl,
        show j + 1 + m = j + (m + 1) from by omega]

lemma run_bench_general : ∀ L : List Nat,
    run (initState NUM_WORKERS) (enqTrace L ++ Label.stopL :: (drainTrace L ++ exitTrace 0 NUM_WORKERS))
      = some { queue := [], stop := true, workers := List.replicate NUM_WORKERS WorkerState.done, execLog := L, submitted := L } := by
  intro L
  rw [run_append, run_enqTrace, Option.some_bind]
  show run { queue := L, stop := false, workers := List.replicate NUM_WORKERS WorkerState.idle, execLog := [], submitted := L } (Label.stopL :: (drainTrace L ++ exitTrace 0 NUM_WORKERS)) = _
  rw [run, step_stopL_eq, Option.some_bind]
  show run { queue := L, stop := true, workers := List.replicate NUM_WORKERS WorkerState.idle, execLog := [], submitted := L } (drainTrace L ++ exitTrace 0 NUM_WORKERS) = _
  rw [run_append]
  have hdrain := run_drainTrace L
    { queue := L, stop := true, workers := List.replicate NUM_WORKERS WorkerState.idle, execLog := [], submitted := L }
    (List.replicate 7 WorkerState.idle) rfl rfl
  rw [hdrain, Option.some_bind]
  show run { queue := [], stop := true, workers := List.replicate NUM_WORKERS WorkerState.idle, execLog := L, submitted := L } (exitTrace 0 NUM_WORKERS) = _
  have hexits := run_exitTrace NUM_WORKERS 0
    { queue := [], stop := true, workers := List.replicate NUM_WORKERS WorkerState.idle, execLog := L, submitted := L }
    rfl rfl rfl
  rw [hexits]
  rfl

lemma run_benchTrace : run (initState NUM_WORKERS) benchTrace = some benchFinal :=
  run_bench_general (List.range NUM_TASKS)

lemma noEnqAt_append (l1 l2 : List Label) :
    noEnqAt (l1 ++ l2) = (noEnqAt l1 && noEnqAt l2) := by
  induction l1 with
  | nil => simp [noEnqAt]
  | cons l t ih =>
      show noEnqAt (l :: (t ++ l2)) = _
      rw [noEnqAt, ih, noEnqAt, Bool.and_assoc]

lemma noEnqAt_drainTrace : ∀ l : List Nat, noEnqAt (drainTrace l) = true := by
  intro l
  induction l with
  | nil => rfl
  | cons t rest ih =>
      show noEnqAt (Label.claim 0 :: Label.fin 0 :: drainTrace rest) = true
      rw [noEnqAt, noEnqAt, ih]
      rfl

lemma noEnqAt_exitTrace : ∀ (m j : Nat), noEnqAt (exitTrace j m) = true := by
  intro m
  induction m with
  | zero => intro j; rfl
  | succ m ih =>
      intro j
      show noEnqAt (Label.exit j :: exitTrace (j + 1) m) = true
      rw [noEnqAt, ih (j + 1)]
      rfl

lemma noEnqAfterStop_enqTrace : ∀ (l : List Nat) (rest : List Label),
    noEnqAfterStop (enqTrace l ++ Label.stopL :: rest) = noEnqAt rest := by
  intro l
  induction l with
  | nil => intro rest; rfl
  | cons t tl ih =>
      intro rest
      show noEnqAfterStop (Label.enq t :: (enqTrace tl ++ Label.stopL :: rest)) = _
      exact ih rest

lemma noEnqAfterStop_bench : noEnqAfterStop benchTrace = true := by
  rw [benchTrace, noEnqAfterStop_enqTrace, noEnqAt_append, noEnqAt_drainTrace,
    noEnqAt_exitTrace]
  rfl

lemma poolMk_submitted (q : List Nat) (b : Bool) (ws : List WorkerState) (e sub : List Nat) :
    (PoolState.mk q b ws e sub).submitted = sub := rfl

lemma benchFinal_submitted : benchFinal.submitted = List.range NUM_TASKS :=
  poolMk_submitted [] true (List.replicate NUM_WORKERS WorkerState.done)
    (List.range NUM_TASKS) (List.range NUM_TASKS)

theorem C9_benchmark_counter_witness :
    counterOf benchFinal.execLog = 2497475025000000 ∧
    counterOf benchFinal.execLog = ((List.range NUM_TASKS).map heavy_computation).sum % 2 ^ 64 ∧
    ∀ n, heavy_computation n = n * 499500 % 2 ^ 64 :=
  C9_benchmark_counter benchTrace benchFinal run_benchTrace noEnqAfterStop_bench
    benchFinal_submitted (fun _ hw => List.eq_of_mem_replicate hw)

end ThreadPoolModel